import Mathlib

/-!
Verification of the ledger-backed integrity commitment and verification
subsystem of the HealtVault repository.

Strings from the JavaScript source are modelled as `List Char`; the
platform string operations used by the code (`includes`, `startsWith`,
`split`, `trim`, `JSON.stringify` / `JSON.parse` restricted to the note
record shape, decimal rendering of numbers) are given explicit executable
models below.  Asynchronous network interaction is modelled by explicit
environments that record the outcome of every external call, and
JavaScript exceptions are modelled with `Except` / `Option`.
-/

set_option maxRecDepth 100000

/-- Model of a JavaScript string: a list of characters. -/
abbrev Str := List Char

/-- Model of the whitespace test used by JavaScript `String.prototype.trim`
(restricted to the usual ASCII whitespace characters). -/
def isWs (c : Char) : Bool :=
  [' ', '\t', '\n', '\r', '\x0b', '\x0c'].contains c

/-- Model of JavaScript `String.prototype.trim`: drop whitespace from both
ends. -/
def jsTrim (s : Str) : Str :=
  ((s.dropWhile isWs).reverse.dropWhile isWs).reverse

/-- Model of JavaScript `s.startsWith(pat)`. -/
def startsWithL (s pat : Str) : Bool :=
  pat.isPrefixOf s

/-- Model of JavaScript `s.includes(pat)`: substring containment (an empty
pattern is contained in every string). -/
def includesL : Str → Str → Bool
  | [], pat => pat.isPrefixOf []
  | c :: rest, pat => pat.isPrefixOf (c :: rest) || includesL rest pat

/-- Fuel-driven worker for `splitSep`; the fuel always dominates the
length of the remaining input, so the fuel-exhausted branch is never
reached from `splitSep`. -/
def splitSepAux (sep : Str) : Nat → Str → List Str
  | _, [] => [[]]
  | 0, s => [s]
  | fuel + 1, c :: rest =>
    if sep ≠ [] ∧ sep.isPrefixOf (c :: rest) then
      [] :: splitSepAux sep fuel (List.drop sep.length (c :: rest))
    else
      match splitSepAux sep fuel rest with
      | [] => [[c]]
      | p :: ps => (c :: p) :: ps

/-- Model of JavaScript `s.split(sep)` for a non-empty separator:
leftmost, non-overlapping occurrences of `sep` cut the string. -/
def splitSep (sep s : Str) : List Str :=
  splitSepAux sep s.length s

/-- Fuel-driven worker for `natChars`, accumulating digits from the least
significant end. -/
def natCharsAux : Nat → Nat → List Char → List Char
  | 0, _, acc => acc
  | fuel + 1, n, acc =>
    if n < 10 then Nat.digitChar n :: acc
    else natCharsAux fuel (n / 10) (Nat.digitChar (n % 10) :: acc)

/-- Decimal rendering of a natural number, most significant digit first:
model of JavaScript number-to-string conversion for the timestamps that
`JSON.stringify` serializes. -/
def natChars (n : Nat) : List Char :=
  natCharsAux (n + 1) n []

/-- The two-character escape table of `JSON.stringify`: each pair maps a
raw character to the letter written after the backslash. -/
def jsonEscTable : List (Char × Char) :=
  [('"', '"'), ('\\', '\\'), ('\n', 'n'), ('\r', 'r'), ('\t', 't'),
    ('\x08', 'b'), ('\x0c', 'f')]

/-- Model of the character escaping performed by `JSON.stringify` inside a
string value. -/
def jsonEscapeChar (c : Char) : List Char :=
  match jsonEscTable.find? (fun pc => pc.1 == c) with
  | some pc => ['\\', pc.2]
  | none =>
    if c.toNat < 0x20 then
      "\\u00".toList ++ [Nat.digitChar (c.toNat / 16), Nat.digitChar (c.toNat % 16)]
    else [c]

/-- `JSON.stringify` escaping applied to a whole string value. -/
def jsonEscape (s : Str) : Str :=
  (s.map jsonEscapeChar).flatten

/-! ### The note formats built by `storeHealthData` (src/unnamed/part_008)

`storeHealthData` builds
`noteData = \x7b type: 'HEALTH_DATA', hash, timestamp, version: '1.0', app: 'HealthGuardian' \x7d`,
serializes it with `JSON.stringify` (insertion order of the keys), and
joins the JSON format, the legacy flat format and the minimal format with
the separator `|||`. -/

/-- Literal scaffold piece of the serialized note before the type value. -/
def pLit1 : Str := "\x7b\"type\":\"".toList

/-- The literal note type tag. -/
def tVal : Str := "HEALTH_DATA".toList

/-- Scaffold between the type value and the hash value. -/
def pLit2 : Str := ",\"hash\":\"".toList

/-- Scaffold between the hash value and the timestamp digits. -/
def pLit3 : Str := ",\"timestamp\":".toList

/-- Scaffold between the timestamp digits and the version value. -/
def pLit4 : Str := ",\"version\":\"".toList

/-- The literal version value. -/
def vVal : Str := "1.0".toList

/-- Scaffold between the version value and the app value. -/
def pLit5 : Str := ",\"app\":\"".toList

/-- The literal app value. -/
def aVal : Str := "HealthGuardian".toList

/-- `JSON.stringify(noteData)` as built by `storeHealthData`. -/
def jsonNote (f : Str) (ts : Nat) : Str :=
  pLit1 ++ tVal ++ '"' :: pLit2 ++ jsonEscape f ++ '"' :: pLit3 ++
    natChars ts ++ pLit4 ++ vVal ++ '"' :: pLit5 ++ aVal ++ '"' :: ['\x7d']

example :
    jsonNote "ab".toList 95 =
      ("\x7b\"type\":\"HEALTH_DATA\",\"hash\":\"ab\",\"timestamp\":95," ++
        "\"version\":\"1.0\",\"app\":\"HealthGuardian\"\x7d").toList := by
  decide

/-- The legacy flat format `'HEALTH_DATA:' + dataHash`. -/
def legacyNote (f : Str) : Str := "HEALTH_DATA:".toList ++ f

/-- The minimal format `'HG_' + dataHash`. -/
def simpleNote (f : Str) : Str := "HG_".toList ++ f

/-- The reserved separator `'|||'`. -/
def sep3 : Str := "|||".toList

/-- The combination of all three formats, joined by the separator. -/
def combinedNote (f : Str) (ts : Nat) : Str :=
  jsonNote f ts ++ sep3 ++ legacyNote f ++ sep3 ++ simpleNote f

/-- The final note string chosen by `storeHealthData`: the combined note,
unless its length exceeds 1000, in which case the minimal format is
dropped and only the JSON and legacy formats are kept. -/
def encodeNote (f : Str) (ts : Nat) : Str :=
  if 1000 < (combinedNote f ts).length then
    jsonNote f ts ++ sep3 ++ legacyNote f
  else combinedNote f ts

/-! ### The note decoding side (`verifyHealthData` / `verifyNotePart`) -/

/-- The fields of a parsed note record. -/
structure NoteData where
  type : Str
  hash : Str
  timestampDigits : Str
  version : Str
  app : Str
deriving DecidableEq

/-- Inverse of a single `jsonEscapeChar` escape code (`JSON.parse` also
accepts the escaped solidus). -/
def jsonUnescapeChar (e : Char) : Option Char :=
  if e = '/' then some '/'
  else (jsonEscTable.find? (fun pc => pc.2 == e)).map (fun pc => pc.1)

/-- Read a JSON string value up to (and consuming) its closing quote,
undoing single-character escapes; returns the value and the rest of the
input. -/
def readStr : Str → Option (Str × Str)
  | [] => none
  | c :: rest =>
    if c = '"' then some ([], rest)
    else if c = '\\' then
      match rest with
      | [] => none
      | e :: rest' =>
        match jsonUnescapeChar e, readStr rest' with
        | some u, some (v, r) => some (u :: v, r)
        | _, _ => none
    else
      match readStr rest with
      | some (v, r) => some (c :: v, r)
      | none => none

/-- Consume an expected literal piece of input. -/
def parseLit (lit s : Str) : Option Str :=
  if lit.isPrefixOf s then some (s.drop lit.length) else none

/-- Model of `JSON.parse` restricted to the note record shape written by
this application (the only place the verification code applies it): the
parse succeeds exactly on a full, exactly-shaped serialization of
`\x7b type, hash, timestamp, version, app \x7d` and fails on anything else,
as `JSON.parse` throws on trailing garbage or malformed input. -/
def jsonParseNote (s : Str) : Option NoteData := do
  let s1 ← parseLit pLit1 s
  let (ty, s2) ← readStr s1
  let s3 ← parseLit pLit2 s2
  let (h, s4) ← readStr s3
  let s5 ← parseLit pLit3 s4
  let d := s5.takeWhile Char.isDigit
  if d.isEmpty then none else
  let s6 := s5.dropWhile Char.isDigit
  let s7 ← parseLit pLit4 s6
  let (v, s8) ← readStr s7
  let s9 ← parseLit pLit5 s8
  let (a, s10) ← readStr s9
  let s11 ← parseLit ['\x7d'] s10
  if s11.isEmpty then some ⟨ty, h, d, v, a⟩ else none

example :
    jsonParseNote (jsonNote "abc123".toList 95) =
      some ⟨"HEALTH_DATA".toList, "abc123".toList, "95".toList,
        "1.0".toList, "HealthGuardian".toList⟩ := by
  decide

/-- `verifyNotePart` from src/unnamed/part_008: check one note segment
against the expected hash, trying the JSON format, the legacy format, the
minimal format, and finally raw substring containment of the hash. -/
def verifyNotePart (part expectedHash : Str) : Bool :=
  let jsonOk :=
    startsWithL part ['\x7b'] &&
      (match jsonParseNote part with
       | some nd => nd.type == tVal && nd.hash == expectedHash
       | none => false)
  let expectedLegacy := "HEALTH_DATA:".toList ++ expectedHash
  let legacyOk :=
    includesL part ("HEALTH_DATA:".toList) &&
      (part == expectedLegacy || includesL part expectedLegacy)
  let expectedSimple := "HG_".toList ++ expectedHash
  let simpleOk :=
    startsWithL part ("HG_".toList) &&
      (part == expectedSimple || includesL part expectedSimple)
  jsonOk || legacyOk || simpleOk || includesL part expectedHash

/-- The note-matching logic of `verifyHealthData` (src/unnamed/part_008,
after the note string has been decoded): try each trimmed `|||`-separated
segment, then each trimmed `|`-separated segment, then the whole string. -/
def matchesNote (noteString expectedHash : Str) : Bool :=
  let r1 :=
    if includesL noteString sep3 then
      (splitSep sep3 noteString).any (fun p => verifyNotePart (jsTrim p) expectedHash)
    else false
  let r2 :=
    if !r1 && includesL noteString ['|'] then
      (splitSep ['|'] noteString).any (fun p => verifyNotePart (jsTrim p) expectedHash)
    else false
  let r3 := if !(r1 || r2) then verifyNotePart noteString expectedHash else false
  r1 || r2 || r3

example : matchesNote (encodeNote "abc123".toList 95) "abc123".toList = true := by
  decide

example : matchesNote (encodeNote "ab".toList 0) "a".toList = true := by
  decide

/-! ### Identity provisioning (`AlgorandService` in src/unnamed/part_008,
`EnhancedAlgorandService` in src/lib/algorand-enhanced.ts)

Accounts carry a string address and a secret-key byte sequence; the
`algosdk.decodeAddress` checksum test is an external library call and is
modelled by an oracle `decodeOk`. -/

/-- An Algorand account candidate: address plus secret-key bytes. -/
structure AlgorandAccount where
  addr : Str
  sk : List Nat
deriving DecidableEq

/-- `validateAccount` from src/unnamed/part_008: the address must be a
non-empty string of exactly 58 characters and the secret key exactly 64
bytes; the checksum decode is attempted only when the address does not
start with `'AAAAAAA'` (the mock-account exemption in the source). -/
def validateAccount (decodeOk : Str → Bool) (account : AlgorandAccount) : Bool :=
  !account.addr.isEmpty &&
  account.addr.length == 58 &&
  account.sk.length == 64 &&
  (startsWithL account.addr ("AAAAAAA".toList) || decodeOk account.addr)

/-- `isValidAccount` from src/lib/algorand-enhanced.ts: as above but the
checksum decode is always required. -/
def isValidAccount (decodeOk : Str → Bool) (account : AlgorandAccount) : Bool :=
  !account.addr.isEmpty &&
  account.addr.length == 58 &&
  account.sk.length == 64 &&
  decodeOk account.addr

/-- `createMockAccount` from src/unnamed/part_008: a fixed 58-`'A'`
address and 64 deterministic bytes derived from the current time. -/
def createMockAccount (now : Nat) : AlgorandAccount :=
  { addr := List.replicate 58 'A'
    sk := (List.range 64).map (fun i => (i * 7 + now) % 256) }

/-- Outcomes of the four generation strategies plus the inputs of the
mock-account construction: `none` models the underlying library call
throwing. -/
structure GenEnv where
  direct : Option AlgorandAccount
  fromMnemonic : Option AlgorandAccount
  manual : Option AlgorandAccount
  fallbackAcct : Option AlgorandAccount
  now : Nat
  decodeOk : Str → Bool

/-- `generateAccountFallback` from src/unnamed/part_008: derive an account
from a deterministic mnemonic; if that throws or fails validation, the
`catch` returns `createMockAccount()` instead of propagating the failure. -/
def generateAccountFallback (env : GenEnv) : AlgorandAccount :=
  match env.fallbackAcct with
  | some a =>
    if validateAccount env.decodeOk a then a else createMockAccount env.now
  | none => createMockAccount env.now

/-- Strategy 3 onward of `generateAccount`: manual generation, then the
deterministic fallback (which cannot fail, see `generateAccountFallback`). -/
def genFromManual (env : GenEnv) : Except Str AlgorandAccount :=
  match env.manual with
  | some a =>
    if validateAccount env.decodeOk a then .ok a
    else .ok (generateAccountFallback env)
  | none => .ok (generateAccountFallback env)

/-- Strategy 2 onward of `generateAccount`: mnemonic-based generation,
then the remaining strategies. -/
def genFromMnemonic (env : GenEnv) : Except Str AlgorandAccount :=
  match env.fromMnemonic with
  | some a =>
    if validateAccount env.decodeOk a then .ok a else genFromManual env
  | none => genFromManual env

/-- `generateAccount` from src/unnamed/part_008: try direct generation,
mnemonic generation, manual generation and the deterministic fallback in
order; the final `throw new Error('All account generation methods
failed')` is reachable only if every strategy fails AND the fallback
throws — which the fallback never does. -/
def generateAccount (env : GenEnv) : Except Str AlgorandAccount :=
  match env.direct with
  | some a =>
    if validateAccount env.decodeOk a then .ok a else genFromMnemonic env
  | none => genFromMnemonic env

/-! ### Funding (`ensureAccountFunded` in src/unnamed/part_008) -/

/-- The minimum balance used by `ensureAccountFunded`: 100000 microAlgos. -/
def minimumBalance : Nat := 100000

/-- Outcomes of the external calls made during funding: the balance
queried before funding, and per dispenser index the HTTP outcome
(`none` models `fetch` throwing, `some ok` the value of `response.ok`)
and the balance re-queried after that dispenser's settle delay. -/
structure FundEnv where
  initialBalance : Nat
  responseOk : Nat → Option Bool
  balanceAfter : Nat → Nat

/-- The dispenser loop of `ensureAccountFunded`: on a thrown fetch or a
non-ok response, continue with the next dispenser; on an ok response,
wait, re-query the balance, and stop with `true` if it now meets the
minimum.  Returns the result together with the number of faucet requests
issued. -/
def tryDispensers (env : FundEnv) : List Nat → Nat → Bool × Nat
  | [], calls => (false, calls)
  | i :: rest, calls =>
    match env.responseOk i with
    | none => tryDispensers env rest (calls + 1)
    | some ok =>
      if ok then
        if minimumBalance ≤ env.balanceAfter i then (true, calls + 1)
        else tryDispensers env rest (calls + 1)
      else tryDispensers env rest (calls + 1)

/-- `ensureAccountFunded` from src/unnamed/part_008: short-circuit on a
sufficient balance, otherwise try the two configured dispensers in order;
never throws. -/
def ensureAccountFunded (env : FundEnv) : Bool × Nat :=
  if minimumBalance ≤ env.initialBalance then (true, 0)
  else tryDispensers env [0, 1] 0

/-! ### Verification service (`verifyHealthData`, `fallbackVerification`
and `verifyHealthDataOnBlockchain` in src/unnamed/part_008) -/

/-- A note field of a fetched transaction: its raw string form
(`String(note)`) and, when base64/byte decoding succeeds, the decoded
text (`none` models every decode path throwing). -/
structure NoteField where
  raw : Str
  decoded : Option Str
deriving DecidableEq

/-- A fetched transaction record: its confirmed round, if any, and the
note as found by each of the three lookup strategies (direct field
access, the alternate path, and the recursive deep search). -/
structure TxnInfo where
  confirmedRound : Option Nat
  noteDirect : Option NoteField
  noteAlt : Option NoteField
  noteDeep : Option NoteField

/-- Outcomes of the per-attempt `pendingTransactionInformation` calls:
`none` models the call throwing.  Attempts are numbered from 1. -/
structure VerifyEnv where
  fetch : Nat → Option TxnInfo
  fallbackFetch : Nat → Option TxnInfo

/-- Note extraction: direct access, then the alternate path, then the
deep search. -/
def findNote (t : TxnInfo) : Option NoteField :=
  (t.noteDirect.orElse fun _ => t.noteAlt).orElse fun _ => t.noteDeep

/-- The retry loop around `pendingTransactionInformation`: up to 3
attempts, rethrowing the last failure. -/
def firstFetch (env : VerifyEnv) : Option TxnInfo :=
  ((env.fetch 1).orElse fun _ => env.fetch 2).orElse fun _ => env.fetch 3

/-- `fallbackVerification` from src/unnamed/part_008: up to 3 re-fetches
with growing delays; when a note is found, check raw containment of the
hash in the decoded note (or in the raw note value when decoding throws);
never throws. -/
def fallbackVerification (dataHash : Str) (env : VerifyEnv) : Bool :=
  [1, 2, 3].any fun i =>
    match env.fallbackFetch i with
    | none => false
    | some t =>
      match findNote t with
      | none => false
      | some nf =>
        match nf.decoded with
        | some s => includesL s dataHash
        | none => includesL nf.raw dataHash

/-- The body of `verifyHealthData` (src/unnamed/part_008) up to its outer
`catch`: an `.error` is a JavaScript exception crossing the inner logic. -/
def verifyHealthDataBody (dataHash : Str) (env : VerifyEnv) : Except Str Bool :=
  match firstFetch env with
  | none => .error "Failed to retrieve transaction information after multiple attempts".toList
  | some t =>
    match t.confirmedRound with
    | none => .ok false
    | some _ =>
      match findNote t with
      | none => .ok (fallbackVerification dataHash env)
      | some nf =>
        match nf.decoded with
        | none => .ok false
        | some noteString => .ok (matchesNote noteString dataHash)

/-- `verifyHealthData` from src/unnamed/part_008: the body wrapped in the
outer `try`/`catch` that maps every exception to `false`. -/
def verifyHealthData (dataHash : Str) (env : VerifyEnv) : Bool :=
  match verifyHealthDataBody dataHash env with
  | .ok b => b
  | .error _ => false

/-- `verifyHealthDataOnBlockchain` from src/unnamed/part_008: with a
transaction id, full verification; without one, only the address
truthiness/length check. -/
def verifyHealthDataOnBlockchain (dataHash userAddress : Str) (txId : Option Str)
    (env : VerifyEnv) : Bool :=
  match txId with
  | some _ => verifyHealthData dataHash env
  | none => !userAddress.isEmpty && userAddress.length == 58

/-! ### Commitment (`storeHealthDataInTransaction` in
src/lib/algorand-enhanced.ts) -/

/-- The transaction record returned on a successful commitment. -/
structure HealthDataTransaction where
  txId : Str
  blockNumber : Nat
  dataHash : Str
  userAddress : Str
  verified : Bool
deriving DecidableEq

/-- Outcomes of the network steps of one commitment attempt: parameter
fetch, raw-transaction submission (yielding the transaction id) and
confirmation wait (yielding the confirmed round); `.error` carries the
thrown message. -/
structure AttemptResult where
  paramsFetch : Except Str Unit
  submitTx : Except Str Str
  confirmTx : Except Str Nat

/-- Per-attempt environment of `storeHealthDataInTransaction`: the funding
outcome (consulted but never fatal) and the step outcomes, indexed by
attempt number starting at 1. -/
structure CommitEnv where
  funding : Nat → Bool
  attempt : Nat → AttemptResult

/-- One attempt of the commitment loop: fund (result only logged), fetch
fresh parameters, build/sign/submit, await confirmation. -/
def stepAttempt (env : CommitEnv) (i : Nat) : Except Str (Str × Nat) :=
  let _fundingSuccess := env.funding i
  do
    let _ ← (env.attempt i).paramsFetch
    let txId ← (env.attempt i).submitTx
    let round ← (env.attempt i).confirmTx
    return (txId, round)

/-- The retry loop of `storeHealthDataInTransaction`: up to 3 attempts;
between failed attempts sleep `2000 * attempt` milliseconds (the delays
are returned for inspection); after the final failure the last error is
rethrown wrapped in the commitment-failure message. -/
def commitGo (account : AlgorandAccount) (dataHash : Str) (env : CommitEnv) :
    Nat → Nat → Except Str HealthDataTransaction × List Nat
  | _, 0 => (.error "Maximum attempts exceeded".toList, [])
  | attempt, remaining + 1 =>
    match stepAttempt env attempt with
    | .ok (txId, round) =>
      (.ok { txId := txId, blockNumber := round, dataHash := dataHash,
             userAddress := account.addr, verified := true }, [])
    | .error e =>
      if remaining = 0 then
        (.error ("Failed to store health data after 3 attempts: ".toList ++ e), [])
      else
        let next := commitGo account dataHash env (attempt + 1) remaining
        (next.1, (2000 * attempt) :: next.2)

/-- `storeHealthDataInTransaction` from src/lib/algorand-enhanced.ts:
validate the account, then run the bounded retry loop. -/
def storeHealthDataInTransaction (decodeOk : Str → Bool)
    (account : AlgorandAccount) (dataHash : Str) (env : CommitEnv) :
    Except Str HealthDataTransaction × List Nat :=
  if isValidAccount decodeOk account then commitGo account dataHash env 1 3
  else (.error "Invalid account provided for transaction".toList, [])

/-! ### Basic facts about the string-operation models -/

/-- A character that needs no JSON escaping and cannot collide with the
separator, the JSON scaffold quoting or trimming: printable ASCII other
than `'|'`, `'"'`, backslash and `'\x7b'`.  Every hexadecimal fingerprint
character is clean. -/
def cleanChar (c : Char) : Bool :=
  decide (32 < c.toNat) && decide (c.toNat < 127) &&
    !(c == '|') && !(c == '"') && !(c == '\\') && !(c == '\x7b')

theorem cleanChar_spec {c : Char} (h : cleanChar c = true) :
    isWs c = false ∧ c ≠ '|' ∧ c ≠ '"' ∧ c ≠ '\\' ∧ c ≠ '\x7b' ∧
      jsonEscapeChar c = [c] := by
  simp only [cleanChar, Bool.and_eq_true, Bool.not_eq_true', beq_eq_false_iff_ne,
    decide_eq_true_eq] at h
  obtain ⟨⟨⟨⟨⟨h32, h127⟩, hp⟩, hq⟩, hb⟩, hbr⟩ := h
  refine ⟨?_, hp, hq, hb, hbr, ?_⟩
  · simp only [isWs, List.contains, List.elem_eq_mem, decide_eq_false_iff_not,
      List.mem_cons, List.mem_singleton, not_or, List.not_mem_nil, not_false_iff,
      and_true]
    refine ⟨?_, ?_, ?_, ?_, ?_, ?_⟩ <;> (intro hc; subst hc; simp at h32)
  · have e1 : (('"' : Char) == c) = false :=
      beq_eq_false_iff_ne.mpr (fun h => hq h.symm)
    have e2 : (('\\' : Char) == c) = false :=
      beq_eq_false_iff_ne.mpr (fun h => hb h.symm)
    have e3 : (('\n' : Char) == c) = false := by
      refine beq_eq_false_iff_ne.mpr ?_
      intro h; rw [← h] at h32; exact absurd h32 (by decide)
    have e4 : (('\r' : Char) == c) = false := by
      refine beq_eq_false_iff_ne.mpr ?_
      intro h; rw [← h] at h32; exact absurd h32 (by decide)
    have e5 : (('\t' : Char) == c) = false := by
      refine beq_eq_false_iff_ne.mpr ?_
      intro h; rw [← h] at h32; exact absurd h32 (by decide)
    have e6 : (('\x08' : Char) == c) = false := by
      refine beq_eq_false_iff_ne.mpr ?_
      intro h; rw [← h] at h32; exact absurd h32 (by decide)
    have e7 : (('\x0c' : Char) == c) = false := by
      refine beq_eq_false_iff_ne.mpr ?_
      intro h; rw [← h] at h32; exact absurd h32 (by decide)
    have hn : ¬c.toNat < 0x20 := by omega
    simp [jsonEscapeChar, jsonEscTable, List.find?, e1, e2, e3, e4, e5, e6, e7, hn]

/-- A whole string of clean characters. -/
def cleanStr (s : Str) : Bool := s.all cleanChar

theorem jsonEscape_eq_self {s : Str} (h : cleanStr s = true) : jsonEscape s = s := by
  induction s with
  | nil => rfl
  | cons c t ih =>
    simp only [cleanStr, List.all_cons, Bool.and_eq_true] at h
    have hc := (cleanChar_spec h.1).2.2.2.2.2
    simp only [jsonEscape, List.map_cons, List.flatten_cons, hc]
    simpa [jsonEscape] using ih h.2

theorem isPrefixOf_true_iff {l1 l2 : Str} : l1.isPrefixOf l2 = true ↔ l1 <+: l2 :=
  List.isPrefixOf_iff_prefix

theorem infixOfPre {l1 l2 : Str} (h : l1 <+: l2) : l1 <:+: l2 :=
  List.IsPrefix.isInfix h

theorem infixOfSuf {l1 l2 : Str} (h : l1 <:+ l2) : l1 <:+: l2 :=
  List.IsSuffix.isInfix h

theorem includesL_iff {s pat : Str} : includesL s pat = true ↔ pat <:+: s := by
  induction s with
  | nil =>
    simp [includesL, isPrefixOf_true_iff, List.infix_nil, List.prefix_nil]
  | cons c t ih =>
    simp [includesL, isPrefixOf_true_iff, ih, List.infix_cons_iff]

theorem includesL_eq_false_iff {s pat : Str} : includesL s pat = false ↔ ¬ pat <:+: s := by
  rw [← includesL_iff]
  cases h : includesL s pat <;> simp

theorem startsWithL_iff {s pat : Str} : startsWithL s pat = true ↔ pat <+: s := by
  simp [startsWithL, isPrefixOf_true_iff]

/-! Fuel-independence and the unfolding equations of `splitSep`. -/

theorem splitSepAux_fuel (sep : Str) :
    ∀ f1 : Nat, ∀ f2 : Nat, ∀ s : Str, s.length ≤ f1 → s.length ≤ f2 →
      splitSepAux sep f1 s = splitSepAux sep f2 s := by
  intro f1
  induction f1 with
  | zero =>
    intro f2 s h1 _
    have : s = [] := by
      cases s with
      | nil => rfl
      | cons a t => simp at h1
    subst this
    cases f2 <;> rfl
  | succ g ih =>
    intro f2 s h1 h2
    cases s with
    | nil => cases f2 <;> rfl
    | cons c rest =>
      cases f2 with
      | zero => simp at h2
      | succ g2 =>
        simp only [splitSepAux]
        by_cases hc : sep ≠ [] ∧ sep.isPrefixOf (c :: rest)
        · rw [if_pos hc, if_pos hc]
          have hsep : 0 < sep.length := List.length_pos.mpr hc.1
          have hd : (List.drop sep.length (c :: rest)).length ≤ g := by
            simp only [List.length_drop, List.length_cons]
            simp only [List.length_cons] at h1
            omega
          have hd2 : (List.drop sep.length (c :: rest)).length ≤ g2 := by
            simp only [List.length_drop, List.length_cons]
            simp only [List.length_cons] at h2
            omega
          rw [ih g2 _ hd hd2]
        · rw [if_neg hc, if_neg hc]
          have hr : rest.length ≤ g := by simp only [List.length_cons] at h1; omega
          have hr2 : rest.length ≤ g2 := by simp only [List.length_cons] at h2; omega
          rw [ih g2 rest hr hr2]

theorem splitSep_cons_pos {sep : Str} {c : Char} {rest : Str}
    (h : sep ≠ [] ∧ sep.isPrefixOf (c :: rest)) :
    splitSep sep (c :: rest) = [] :: splitSep sep (List.drop sep.length (c :: rest)) := by
  have hsep : 0 < sep.length := List.length_pos.mpr h.1
  simp only [splitSep, List.length_cons, splitSepAux, if_pos h]
  congr 1
  refine splitSepAux_fuel sep rest.length _ _ ?_ le_rfl
  simp only [List.length_drop, List.length_cons]
  omega

theorem splitSep_cons_neg {sep : Str} {c : Char} {rest : Str}
    (h : ¬(sep ≠ [] ∧ sep.isPrefixOf (c :: rest))) :
    splitSep sep (c :: rest) =
      match splitSep sep rest with
      | [] => [[c]]
      | p :: ps => (c :: p) :: ps := by
  simp only [splitSep, List.length_cons, splitSepAux, if_neg h]

/-- Splitting a string that contains no occurrence of the separator's
first character yields the whole string as the single piece. -/
theorem splitSep_no_occ {c₀ : Char} {sep' a : Str} (ha : ∀ x ∈ a, x ≠ c₀) :
    splitSep (c₀ :: sep') a = [a] := by
  induction a with
  | nil => rfl
  | cons c t ih =>
    have hc : c ≠ c₀ := ha c (List.mem_cons_self c t)
    have hnp : ¬((c₀ :: sep') ≠ [] ∧ (c₀ :: sep').isPrefixOf (c :: t)) := by
      rintro ⟨-, hpre⟩
      have := isPrefixOf_true_iff.mp hpre
      rw [List.cons_prefix_cons] at this
      exact hc this.1.symm
    rw [splitSep_cons_neg hnp, ih (fun x hx => ha x (List.mem_cons_of_mem c hx))]

/-- Splitting `a ++ sep ++ b` where `a` avoids the separator's first
character cuts exactly at the separator. -/
theorem splitSep_append {c₀ : Char} {sep' : Str} (a b : Str)
    (ha : ∀ x ∈ a, x ≠ c₀) :
    splitSep (c₀ :: sep') (a ++ (c₀ :: sep') ++ b) = a :: splitSep (c₀ :: sep') b := by
  induction a with
  | nil =>
    simp only [List.nil_append, List.cons_append]
    have hp : (c₀ :: sep') ≠ [] ∧ (c₀ :: sep').isPrefixOf (c₀ :: (sep' ++ b)) := by
      refine ⟨List.cons_ne_nil _ _, isPrefixOf_true_iff.mpr ?_⟩
      rw [List.cons_prefix_cons]
      exact ⟨rfl, List.prefix_append sep' b⟩
    rw [splitSep_cons_pos hp]
    congr 1
    have : c₀ :: (sep' ++ b) = (c₀ :: sep') ++ b := rfl
    rw [this, List.drop_left]
  | cons c t ih =>
    have hc : c ≠ c₀ := ha c (List.mem_cons_self c t)
    have hnp : ¬((c₀ :: sep') ≠ [] ∧
        (c₀ :: sep').isPrefixOf (c :: (t ++ (c₀ :: sep') ++ b))) := by
      rintro ⟨-, hpre⟩
      have := isPrefixOf_true_iff.mp hpre
      rw [List.cons_prefix_cons] at this
      exact hc this.1.symm
    have hshape : (c :: t) ++ (c₀ :: sep') ++ b = c :: (t ++ (c₀ :: sep') ++ b) := by
      simp
    rw [hshape, splitSep_cons_neg hnp, ih (fun x hx => ha x (List.mem_cons_of_mem c hx))]

/-! Facts about the decimal rendering `natChars`. -/

theorem digitChar_clean {m : Nat} (h : m < 10) :
    (Nat.digitChar m).isDigit = true ∧ cleanChar (Nat.digitChar m) = true := by
  interval_cases m <;> exact ⟨by decide, by decide⟩

theorem natCharsAux_ne_nil :
    ∀ fuel n : Nat, ∀ acc : List Char, acc ≠ [] → natCharsAux fuel n acc ≠ [] := by
  intro fuel
  induction fuel with
  | zero => intro n acc h; exact h
  | succ g ih =>
    intro n acc h
    simp only [natCharsAux]
    by_cases hn : n < 10
    · simp [hn]
    · rw [if_neg hn]
      exact ih _ _ (List.cons_ne_nil _ _)

theorem natChars_ne_nil (n : Nat) : natChars n ≠ [] := by
  simp only [natChars, natCharsAux]
  by_cases hn : n < 10
  · simp [hn]
  · rw [if_neg hn]
    exact natCharsAux_ne_nil _ _ _ (List.cons_ne_nil _ _)

theorem natCharsAux_digit_clean :
    ∀ fuel n : Nat, ∀ acc : List Char,
      (∀ c ∈ acc, c.isDigit = true ∧ cleanChar c = true) →
      ∀ c ∈ natCharsAux fuel n acc, c.isDigit = true ∧ cleanChar c = true := by
  intro fuel
  induction fuel with
  | zero => intro n acc h; exact h
  | succ g ih =>
    intro n acc h
    simp only [natCharsAux]
    by_cases hn : n < 10
    · rw [if_pos hn]
      intro c hc
      rcases List.mem_cons.mp hc with hc | hc
      · subst hc; exact digitChar_clean hn
      · exact h c hc
    · rw [if_neg hn]
      refine ih _ _ ?_
      intro c hc
      rcases List.mem_cons.mp hc with hc | hc
      · subst hc; exact digitChar_clean (Nat.mod_lt _ (by omega))
      · exact h c hc

theorem natChars_digit_clean (n : Nat) :
    ∀ c ∈ natChars n, c.isDigit = true ∧ cleanChar c = true := by
  simp only [natChars]
  exact natCharsAux_digit_clean _ _ _ (by intro c hc; simp at hc)

/-! Trimming is the identity on strings whose ends are not whitespace. -/

theorem dropWhile_eq_self_of_head {p : Char → Bool} {s : Str}
    (h : ∀ c, s.head? = some c → p c = false) : s.dropWhile p = s := by
  cases s with
  | nil => rfl
  | cons c t => simp [List.dropWhile_cons, h c rfl]

theorem jsTrim_eq_self {s : Str}
    (h1 : ∀ c, s.head? = some c → isWs c = false)
    (h2 : ∀ c, s.getLast? = some c → isWs c = false) : jsTrim s = s := by
  unfold jsTrim
  rw [dropWhile_eq_self_of_head h1]
  rw [dropWhile_eq_self_of_head (by
    intro c hc
    rw [List.head?_reverse] at hc
    exact h2 c hc)]
  exact List.reverse_reverse s

/-! Every piece produced by `splitSep` is an infix of the input, and the
first piece is a prefix. -/

theorem splitSepAux_shape (sep : Str) :
    ∀ fuel : Nat, ∀ s : Str, ∃ p t, splitSepAux sep fuel s = p :: t ∧ p <+: s := by
  intro fuel
  induction fuel with
  | zero =>
    intro s
    cases s with
    | nil => exact ⟨[], [], rfl, List.nil_prefix⟩
    | cons c rest => exact ⟨c :: rest, [], rfl, List.prefix_refl _⟩
  | succ g ih =>
    intro s
    cases s with
    | nil => exact ⟨[], [], rfl, List.nil_prefix⟩
    | cons c rest =>
      simp only [splitSepAux]
      by_cases hc : sep ≠ [] ∧ sep.isPrefixOf (c :: rest)
      · rw [if_pos hc]
        exact ⟨[], _, rfl, List.nil_prefix⟩
      · rw [if_neg hc]
        obtain ⟨p, t, heq, hp⟩ := ih rest
        rw [heq]
        exact ⟨c :: p, t, rfl, List.cons_prefix_cons.mpr ⟨rfl, hp⟩⟩

theorem splitSepAux_piece_inf (sep : Str) :
    ∀ fuel : Nat, ∀ s : Str, ∀ p ∈ splitSepAux sep fuel s, p <:+: s := by
  intro fuel
  induction fuel with
  | zero =>
    intro s p hp
    cases s with
    | nil => simp only [splitSepAux, List.mem_singleton] at hp; simp [hp]
    | cons c rest =>
      simp only [splitSepAux, List.mem_singleton] at hp
      simp [hp]
  | succ g ih =>
    intro s p hp
    cases s with
    | nil => simp only [splitSepAux, List.mem_singleton] at hp; simp [hp]
    | cons c rest =>
      simp only [splitSepAux] at hp
      by_cases hc : sep ≠ [] ∧ sep.isPrefixOf (c :: rest)
      · rw [if_pos hc] at hp
        rcases List.mem_cons.mp hp with hp | hp
        · simp [hp]
        · exact (ih _ p hp).trans (infixOfSuf (List.drop_suffix _ _))
      · rw [if_neg hc] at hp
        obtain ⟨q, t, heq, hq⟩ := splitSepAux_shape sep g rest
        rw [heq] at hp
        rcases List.mem_cons.mp hp with hp | hp
        · subst hp
          exact infixOfPre (List.cons_prefix_cons.mpr ⟨rfl, hq⟩)
        · have : p ∈ splitSepAux sep g rest := by rw [heq]; exact List.mem_cons_of_mem _ hp
          exact List.infix_cons (ih rest p this)

theorem splitSep_piece_inf {sep s : Str} {p : Str} (hp : p ∈ splitSep sep s) : p <:+: s :=
  splitSepAux_piece_inf sep s.length s p hp

/-! ### Correctness of the note parser on notes written by this app -/

theorem parseLit_append (lit rest : Str) : parseLit lit (lit ++ rest) = some rest := by
  simp only [parseLit, isPrefixOf_true_iff.mpr (List.prefix_append lit rest),
    if_true, List.drop_left]

theorem readStr_exact {content : Str} (h : ∀ c ∈ content, c ≠ '"' ∧ c ≠ '\\')
    (rest : Str) : readStr (content ++ '"' :: rest) = some (content, rest) := by
  induction content with
  | nil =>
    rw [List.nil_append, readStr.eq_def]
    simp
  | cons c t ih =>
    have hc := h c (List.mem_cons_self c t)
    have ht : ∀ c ∈ t, c ≠ '"' ∧ c ≠ '\\' := fun x hx => h x (List.mem_cons_of_mem c hx)
    rw [List.cons_append, readStr.eq_def]
    simp only [if_neg hc.1, if_neg hc.2, ih ht]

theorem takeWhile_append_of_all {p : Char → Bool} {d r : Str}
    (hd : ∀ c ∈ d, p c = true) (hr : ∀ c, r.head? = some c → p c = false) :
    (d ++ r).takeWhile p = d := by
  induction d with
  | nil =>
    cases r with
    | nil => rfl
    | cons c r' => simp [List.takeWhile_cons, hr c rfl]
  | cons c t ih =>
    simp only [List.cons_append, List.takeWhile_cons, hd c (List.mem_cons_self c t),
      if_true]
    rw [ih (fun x hx => hd x (List.mem_cons_of_mem c hx))]

theorem dropWhile_append_of_all {p : Char → Bool} {d r : Str}
    (hd : ∀ c ∈ d, p c = true) (hr : ∀ c, r.head? = some c → p c = false) :
    (d ++ r).dropWhile p = r := by
  induction d with
  | nil => exact dropWhile_eq_self_of_head hr
  | cons c t ih =>
    simp only [List.cons_append, List.dropWhile_cons, hd c (List.mem_cons_self c t),
      if_true]
    exact ih (fun x hx => hd x (List.mem_cons_of_mem c hx))

theorem jsonParseNote_jsonNote {f : Str} (hf : cleanStr f = true) (ts : Nat) (rest : Str) :
    jsonParseNote (jsonNote f ts ++ rest) =
      if rest.isEmpty then some ⟨tVal, f, natChars ts, vVal, aVal⟩ else none := by
  have hfq : ∀ c ∈ f, c ≠ '"' ∧ c ≠ '\\' := by
    intro c hc
    have hcc := cleanChar_spec (List.all_eq_true.mp hf c hc)
    exact ⟨hcc.2.2.1, hcc.2.2.2.1⟩
  have htv : ∀ c ∈ tVal, c ≠ '"' ∧ c ≠ '\\' := by decide
  have hvv : ∀ c ∈ vVal, c ≠ '"' ∧ c ≠ '\\' := by decide
  have hav : ∀ c ∈ aVal, c ≠ '"' ∧ c ≠ '\\' := by decide
  have hdig : ∀ c ∈ natChars ts, Char.isDigit c = true :=
    fun c hc => (natChars_digit_clean ts c hc).1
  have hp4head : ∀ {R : Str} (c : Char), (pLit4 ++ R).head? = some c →
      Char.isDigit c = false := by
    intro R c hc
    rw [show (pLit4 : Str) = ',' :: "\"version\":\"".toList from by decide,
      List.cons_append, List.head?_cons] at hc
    cases hc
    decide
  unfold jsonParseNote
  rw [jsonNote, jsonEscape_eq_self hf]
  simp only [List.append_assoc, List.cons_append, Option.bind_eq_bind]
  rw [parseLit_append]
  simp only [Option.some_bind]
  rw [readStr_exact htv]
  simp only [Option.some_bind]
  rw [parseLit_append]
  simp only [Option.some_bind]
  rw [readStr_exact hfq]
  simp only [Option.some_bind]
  rw [parseLit_append]
  simp only [Option.some_bind]
  rw [takeWhile_append_of_all hdig hp4head, dropWhile_append_of_all hdig hp4head]
  rw [show (natChars ts).isEmpty = false from by
    cases hnc : natChars ts with
    | nil => exact absurd hnc (natChars_ne_nil ts)
    | cons a l => rfl]
  simp only [Bool.false_eq_true, if_false]
  rw [parseLit_append]
  simp only [Option.some_bind]
  rw [readStr_exact hvv]
  simp only [Option.some_bind]
  rw [parseLit_append]
  simp only [Option.some_bind]
  rw [readStr_exact hav]
  simp only [Option.some_bind]
  simp only [List.nil_append]
  rw [show ('\x7d' :: rest : Str) = ['\x7d'] ++ rest from rfl, parseLit_append]
  simp only [Option.some_bind]


/-! ### Structure of the segment matcher -/

/-- The sequential `if`-ladder of the matcher is equivalent to a plain
three-way disjunction. -/
theorem matchesNote_eq (s f : Str) :
    matchesNote s f =
      ((includesL s sep3 && (splitSep sep3 s).any fun p => verifyNotePart (jsTrim p) f) ||
       ((includesL s ['|'] && (splitSep ['|'] s).any fun p => verifyNotePart (jsTrim p) f) ||
        verifyNotePart s f)) := by
  simp only [matchesNote]
  cases h1 : includesL s sep3 <;>
  cases hb1 : (splitSep sep3 s).any (fun p => verifyNotePart (jsTrim p) f) <;>
  cases h2 : includesL s ['|'] <;>
  cases hb2 : (splitSep ['|'] s).any (fun p => verifyNotePart (jsTrim p) f) <;>
  cases hb3 : verifyNotePart s f <;>
  simp [h1, hb1, h2, hb2, hb3]

/-- The raw-containment fallback of `verifyNotePart` makes it at least as
permissive as substring containment. -/
theorem verifyNotePart_of_includes {part f : Str} (h : includesL part f = true) :
    verifyNotePart part f = true := by
  unfold verifyNotePart
  simp [h]

/-- A part that contains the whole legacy format passes `verifyNotePart`. -/
theorem verifyNotePart_of_legacy {part f : Str}
    (h : includesL part (legacyNote f) = true) : verifyNotePart part f = true := by
  rw [legacyNote] at h
  have h1 : includesL part ("HEALTH_DATA:".toList) = true := by
    rw [includesL_iff] at h ⊢
    exact (infixOfPre (List.prefix_append ("HEALTH_DATA:".toList) f)).trans
      ((List.infix_refl _).trans h)
  unfold verifyNotePart
  simp only [h1, h, Bool.true_and, Bool.or_true, Bool.true_or]

/-- C1 — Round-trip: a note built by `storeHealthData`'s note construction
(JSON, legacy and minimal formats joined by `'|||'`) is always accepted by
the segment-wise verification of the same fingerprint:
`matchesNote (encodeNote f ts) f = true` for every fingerprint string `f`
and timestamp `ts`. -/
theorem noteCodec_roundtrip (f : Str) (ts : Nat) :
    matchesNote (encodeNote f ts) f = true := by
  rw [matchesNote_eq]
  have hleg : includesL (encodeNote f ts) (legacyNote f) = true := by
    rw [includesL_iff]
    unfold encodeNote
    by_cases hlen : 1000 < (combinedNote f ts).length
    · rw [if_pos hlen]
      exact ⟨jsonNote f ts ++ sep3, [], by simp⟩
    · rw [if_neg hlen]
      unfold combinedNote
      exact ⟨jsonNote f ts ++ sep3, sep3 ++ simpleNote f, by simp⟩
  rw [verifyNotePart_of_legacy hleg]
  simp

/-- C10 — Matching is at least as permissive as substring containment: if
the expected fingerprint occurs inside any `'|||'`-separated (or legacy
`'|'`-separated) segment of the decoded note string, the verification of
that string returns `true`, whatever the segment's format. -/
theorem matches_substring_segment (s f : Str)
    (h : ((splitSep sep3 s).any fun p => includesL p f) = true ∨
         ((splitSep ['|'] s).any fun p => includesL p f) = true) :
    matchesNote s f = true := by
  rw [matchesNote_eq]
  have hfs : f <:+: s := by
    rcases h with h | h <;>
    · obtain ⟨p, hp, hpf⟩ := List.any_eq_true.mp h
      exact (includesL_iff.mp hpf).trans (splitSep_piece_inf hp)
  rw [verifyNotePart_of_includes (includesL_iff.mpr hfs)]
  simp

/-- Witness for C10 on a concrete note string. -/
theorem matches_substring_segment_witness :
    matchesNote "ab|||cd".toList "c".toList = true :=
  matches_substring_segment _ _ (Or.inl (by decide))

/-! ### Refuting `verifyNotePart` segment by segment (for the corrected
negative round-trip) -/

theorem includesL_nil_pat (s : Str) : includesL s [] = true :=
  includesL_iff.mpr List.nil_infix

theorem ne_nil_of_not_included {s f2 : Str} (hni : includesL s f2 = false) :
    f2 ≠ [] := by
  intro h
  subst h
  rw [includesL_nil_pat] at hni
  exact absurd hni (by simp)

theorem includesL_false_mono {s X f2 : Str} (hni : includesL s f2 = false)
    (hX : X <:+: s) : includesL X f2 = false := by
  rw [includesL_eq_false_iff] at hni ⊢
  exact fun h => hni (h.trans hX)

/-- If a part neither contains the expected hash nor satisfies the JSON
branch, `verifyNotePart` rejects it: the legacy and minimal branches can
only fire on parts that contain the hash. -/
theorem verifyNotePart_false {part f2 : Str}
    (hjson : startsWithL part ['\x7b'] = false ∨
      (match jsonParseNote part with
       | some nd => nd.type == tVal && nd.hash == f2
       | none => false) = false)
    (hni : includesL part f2 = false) :
    verifyNotePart part f2 = false := by
  have hbeq1 : (part == "HEALTH_DATA:".toList ++ f2) = false := by
    refine beq_eq_false_iff_ne.mpr ?_
    intro hcon
    rw [includesL_eq_false_iff] at hni
    exact hni (hcon ▸ infixOfSuf (List.suffix_append _ f2))
  have hbeq2 : (part == "HG_".toList ++ f2) = false := by
    refine beq_eq_false_iff_ne.mpr ?_
    intro hcon
    rw [includesL_eq_false_iff] at hni
    exact hni (hcon ▸ infixOfSuf (List.suffix_append _ f2))
  have hinc1 : includesL part ("HEALTH_DATA:".toList ++ f2) = false := by
    rw [includesL_eq_false_iff] at hni ⊢
    exact fun h => hni ((infixOfSuf (List.suffix_append _ f2)).trans h)
  have hinc2 : includesL part ("HG_".toList ++ f2) = false := by
    rw [includesL_eq_false_iff] at hni ⊢
    exact fun h => hni ((infixOfSuf (List.suffix_append _ f2)).trans h)
  have hj : (startsWithL part ['\x7b'] &&
      match jsonParseNote part with
      | some nd => nd.type == tVal && nd.hash == f2
      | none => false) = false := by
    rcases hjson with h | h
    · rw [h]; exact Bool.false_and _
    · rw [h]; exact Bool.and_false _
  unfold verifyNotePart
  simp only [hj, hbeq1, hbeq2, hinc1, hinc2, hni, Bool.false_and, Bool.and_false,
    Bool.false_or, Bool.or_false, Bool.or_self]

/-- The serialized JSON segment for `f1` is rejected for a different
expected hash `f2` that does not occur inside it. -/
theorem vnp_jsonNote_false {f1 f2 : Str} {ts : Nat} (hclean : cleanStr f1 = true)
    (hne : f1 ≠ f2) (hni : includesL (jsonNote f1 ts) f2 = false) :
    verifyNotePart (jsonNote f1 ts) f2 = false := by
  refine verifyNotePart_false (Or.inr ?_) hni
  have hp := jsonParseNote_jsonNote hclean ts []
  rw [List.append_nil] at hp
  rw [hp]
  simp [beq_eq_false_iff_ne.mpr hne]

/-- The legacy segment for `f1` is rejected when `f2` does not occur
inside it. -/
theorem vnp_legacy_false {f1 f2 : Str}
    (hni : includesL (legacyNote f1) f2 = false) :
    verifyNotePart (legacyNote f1) f2 = false := by
  refine verifyNotePart_false (Or.inl ?_) hni
  rfl

/-- The minimal segment for `f1` is rejected when `f2` does not occur
inside it. -/
theorem vnp_simple_false {f1 f2 : Str}
    (hni : includesL (simpleNote f1) f2 = false) :
    verifyNotePart (simpleNote f1) f2 = false := by
  refine verifyNotePart_false (Or.inl ?_) hni
  rfl

/-- The empty segment (between adjacent pipes) is rejected for a non-empty
expected hash. -/
theorem vnp_nil_false {f2 : Str} (hne : f2 ≠ []) :
    verifyNotePart [] f2 = false := by
  have hni : includesL [] f2 = false := by
    cases f2 with
    | nil => exact absurd rfl hne
    | cons c t => rfl
  exact verifyNotePart_false (Or.inl rfl) hni

/-- The whole combined note (JSON segment followed by separator and more)
is rejected when `f2` does not occur inside it: `JSON.parse` fails on the
trailing data. -/
theorem vnp_whole_false {f1 f2 : Str} {ts : Nat} {extra : Str}
    (hclean : cleanStr f1 = true) (hextra : extra ≠ [])
    (hni : includesL (jsonNote f1 ts ++ extra) f2 = false) :
    verifyNotePart (jsonNote f1 ts ++ extra) f2 = false := by
  refine verifyNotePart_false (Or.inr ?_) hni
  rw [jsonParseNote_jsonNote hclean]
  simp [hextra]

/-! Trimming is the identity on the three segments, and none of them
contains a pipe when the fingerprint is clean. -/

theorem jsTrim_jsonNote (f1 : Str) (ts : Nat) :
    jsTrim (jsonNote f1 ts) = jsonNote f1 ts := by
  refine jsTrim_eq_self ?_ ?_
  · intro c hc
    rw [jsonNote] at hc
    rw [show (pLit1 : Str) = '\x7b' :: "\"type\":\"".toList from rfl] at hc
    simp only [List.cons_append, List.append_assoc, List.head?_cons] at hc
    cases hc
    decide
  · intro c hc
    rw [jsonNote] at hc
    simp only [List.getLast?_append] at hc
    simp at hc
    subst hc
    decide

theorem jsTrim_legacyNote {f1 : Str} (hclean : cleanStr f1 = true) :
    jsTrim (legacyNote f1) = legacyNote f1 := by
  refine jsTrim_eq_self ?_ ?_
  · intro c hc
    rw [show (legacyNote f1 : Str) = 'H' :: ("EALTH_DATA:".toList ++ f1) from rfl,
      List.head?_cons] at hc
    cases hc
    decide
  · intro c hc
    rw [legacyNote, List.getLast?_append] at hc
    cases hf1 : f1.getLast? with
    | none =>
      rw [hf1] at hc
      simp at hc
      subst hc
      decide
    | some d =>
      rw [hf1] at hc
      simp at hc
      obtain ⟨hnil, hd⟩ := List.mem_getLast?_eq_getLast (Option.mem_def.mpr hf1)
      have hdm : d ∈ f1 := hd ▸ List.getLast_mem hnil
      rw [← hc]
      exact (cleanChar_spec (List.all_eq_true.mp hclean _ hdm)).1

theorem jsTrim_simpleNote {f1 : Str} (hclean : cleanStr f1 = true) :
    jsTrim (simpleNote f1) = simpleNote f1 := by
  refine jsTrim_eq_self ?_ ?_
  · intro c hc
    rw [show (simpleNote f1 : Str) = 'H' :: ("G_".toList ++ f1) from rfl,
      List.head?_cons] at hc
    cases hc
    decide
  · intro c hc
    rw [simpleNote, List.getLast?_append] at hc
    cases hf1 : f1.getLast? with
    | none =>
      rw [hf1] at hc
      simp at hc
      subst hc
      decide
    | some d =>
      rw [hf1] at hc
      simp at hc
      obtain ⟨hnil, hd⟩ := List.mem_getLast?_eq_getLast (Option.mem_def.mpr hf1)
      have hdm : d ∈ f1 := hd ▸ List.getLast_mem hnil
      rw [← hc]
      exact (cleanChar_spec (List.all_eq_true.mp hclean _ hdm)).1

theorem no_pipe_append {a b : Str} (ha : ∀ x ∈ a, x ≠ '|') (hb : ∀ x ∈ b, x ≠ '|') :
    ∀ x ∈ a ++ b, x ≠ '|' := by
  intro x hx
  rcases List.mem_append.mp hx with h | h
  · exact ha x h
  · exact hb x h

theorem jsonNote_no_pipe {f1 : Str} (hclean : cleanStr f1 = true) (ts : Nat) :
    ∀ x ∈ jsonNote f1 ts, x ≠ '|' := by
  have hf : ∀ x ∈ f1, x ≠ '|' :=
    fun x hx => (cleanChar_spec (List.all_eq_true.mp hclean x hx)).2.1
  have hnat : ∀ x ∈ natChars ts, x ≠ '|' :=
    fun x hx => (cleanChar_spec (natChars_digit_clean ts x hx).2).2.1
  rw [jsonNote, jsonEscape_eq_self hclean]
  refine no_pipe_append ?_ (by decide)
  refine no_pipe_append ?_ (by decide)
  refine no_pipe_append ?_ (by decide)
  refine no_pipe_append ?_ (by decide)
  refine no_pipe_append ?_ (by decide)
  refine no_pipe_append ?_ hnat
  refine no_pipe_append ?_ (by decide)
  refine no_pipe_append ?_ hf
  refine no_pipe_append ?_ (by decide)
  refine no_pipe_append ?_ (by decide)
  decide

theorem legacyNote_no_pipe {f1 : Str} (hclean : cleanStr f1 = true) :
    ∀ x ∈ legacyNote f1, x ≠ '|' := by
  have hf : ∀ x ∈ f1, x ≠ '|' :=
    fun x hx => (cleanChar_spec (List.all_eq_true.mp hclean x hx)).2.1
  rw [legacyNote]
  exact no_pipe_append (by decide) hf

theorem simpleNote_no_pipe {f1 : Str} (hclean : cleanStr f1 = true) :
    ∀ x ∈ simpleNote f1, x ≠ '|' := by
  have hf : ∀ x ∈ f1, x ≠ '|' :=
    fun x hx => (cleanChar_spec (List.all_eq_true.mp hclean x hx)).2.1
  rw [simpleNote]
  exact no_pipe_append (by decide) hf

theorem jsTrim_nil : jsTrim [] = [] := rfl

/-- C2 amended — Negative round-trip under a no-stray-occurrence
condition: for clean fingerprints `f1 ≠ f2`, if `f2` does not occur as a
raw substring of the encoded note, the match fails.  (The unconditional
claim is false: the raw substring-containment fallback accepts any `f2`
that occurs inside the note, e.g. a prefix of `f1`.) -/
theorem negative_roundtrip_amended {f1 f2 : Str} {ts : Nat}
    (hclean : cleanStr f1 = true) (hne : f1 ≠ f2)
    (hni : includesL (encodeNote f1 ts) f2 = false) :
    matchesNote (encodeNote f1 ts) f2 = false := by
  have hf2ne : f2 ≠ [] := ne_nil_of_not_included hni
  have hJp := jsonNote_no_pipe hclean ts
  have hLp := legacyNote_no_pipe hclean
  have hSp := simpleNote_no_pipe hclean
  have hnilp : ∀ x ∈ ([] : Str), x ≠ '|' := by intro x hx; simp at hx
  have htJ := jsTrim_jsonNote f1 ts
  have htL := jsTrim_legacyNote hclean
  have htS := jsTrim_simpleNote hclean
  have hsep3 : (sep3 : Str) = '|' :: ['|', '|'] := rfl
  have vnpnil : verifyNotePart [] f2 = false := vnp_nil_false hf2ne
  rw [matchesNote_eq]
  unfold encodeNote at hni ⊢
  by_cases hlen : 1000 < (combinedNote f1 ts).length
  · rw [if_pos hlen] at hni ⊢
    have hJinf : jsonNote f1 ts <:+: jsonNote f1 ts ++ sep3 ++ legacyNote f1 :=
      ⟨[], sep3 ++ legacyNote f1, by simp [List.append_assoc]⟩
    have hLinf : legacyNote f1 <:+: jsonNote f1 ts ++ sep3 ++ legacyNote f1 :=
      ⟨jsonNote f1 ts ++ sep3, [], by simp⟩
    have vnpJ := vnp_jsonNote_false hclean hne (includesL_false_mono hni hJinf)
    have vnpL := vnp_legacy_false (includesL_false_mono hni hLinf)
    have hm1 : splitSep sep3 (jsonNote f1 ts ++ sep3 ++ legacyNote f1) =
        [jsonNote f1 ts, legacyNote f1] := by
      rw [hsep3, splitSep_append _ _ hJp, splitSep_no_occ hLp]
    have hshape : (jsonNote f1 ts ++ sep3 ++ legacyNote f1 : Str) =
        (jsonNote f1 ts ++ ['|']) ++ ((([] : Str) ++ ['|']) ++ ((([] : Str) ++ ['|']) ++
          legacyNote f1)) := by
      simp [sep3, List.append_assoc]
    have hm2 : splitSep ['|'] (jsonNote f1 ts ++ sep3 ++ legacyNote f1) =
        [jsonNote f1 ts, [], [], legacyNote f1] := by
      rw [hshape, splitSep_append _ _ hJp, splitSep_append _ _ hnilp,
        splitSep_append _ _ hnilp, splitSep_no_occ hLp]
    have ha1 : ([jsonNote f1 ts, legacyNote f1] : List Str).any
        (fun p => verifyNotePart (jsTrim p) f2) = false := by
      simp [htJ, htL, vnpJ, vnpL]
    have ha2 : ([jsonNote f1 ts, [], [], legacyNote f1] : List Str).any
        (fun p => verifyNotePart (jsTrim p) f2) = false := by
      simp [htJ, htL, vnpJ, vnpL, jsTrim_nil, vnpnil]
    have hassoc : (jsonNote f1 ts ++ sep3 ++ legacyNote f1 : Str) =
        jsonNote f1 ts ++ (sep3 ++ legacyNote f1) := by
      rw [List.append_assoc]
    have hm3 : verifyNotePart (jsonNote f1 ts ++ sep3 ++ legacyNote f1) f2 = false := by
      rw [hassoc]
      refine vnp_whole_false hclean (by simp [sep3]) ?_
      rw [← hassoc]
      exact hni
    rw [hm1, hm2, ha1, ha2, hm3]
    simp
  · rw [if_neg hlen] at hni ⊢
    have hJinf : jsonNote f1 ts <:+: combinedNote f1 ts :=
      ⟨[], sep3 ++ (legacyNote f1 ++ (sep3 ++ simpleNote f1)),
        by simp [combinedNote, List.append_assoc]⟩
    have hLinf : legacyNote f1 <:+: combinedNote f1 ts :=
      ⟨jsonNote f1 ts ++ sep3, sep3 ++ simpleNote f1,
        by simp [combinedNote, List.append_assoc]⟩
    have hSinf : simpleNote f1 <:+: combinedNote f1 ts :=
      ⟨jsonNote f1 ts ++ sep3 ++ legacyNote f1 ++ sep3, [],
        by simp [combinedNote, List.append_assoc]⟩
    have vnpJ := vnp_jsonNote_false hclean hne (includesL_false_mono hni hJinf)
    have vnpL := vnp_legacy_false (includesL_false_mono hni hLinf)
    have vnpS := vnp_simple_false (includesL_false_mono hni hSinf)
    have hc1 : combinedNote f1 ts =
        (jsonNote f1 ts ++ sep3) ++ ((legacyNote f1 ++ sep3) ++ simpleNote f1) := by
      simp [combinedNote, List.append_assoc]
    have hm1 : splitSep sep3 (combinedNote f1 ts) =
        [jsonNote f1 ts, legacyNote f1, simpleNote f1] := by
      rw [hc1, hsep3, splitSep_append _ _ hJp, splitSep_append _ _ hLp,
        splitSep_no_occ hSp]
    have hshape2 : combinedNote f1 ts =
        (jsonNote f1 ts ++ ['|']) ++ ((([] : Str) ++ ['|']) ++ ((([] : Str) ++ ['|']) ++
          ((legacyNote f1 ++ ['|']) ++ ((([] : Str) ++ ['|']) ++ ((([] : Str) ++ ['|']) ++
            simpleNote f1))))) := by
      simp [combinedNote, sep3, List.append_assoc]
    have hm2 : splitSep ['|'] (combinedNote f1 ts) =
        [jsonNote f1 ts, [], [], legacyNote f1, [], [], simpleNote f1] := by
      rw [hshape2, splitSep_append _ _ hJp, splitSep_append _ _ hnilp,
        splitSep_append _ _ hnilp, splitSep_append _ _ hLp, splitSep_append _ _ hnilp,
        splitSep_append _ _ hnilp, splitSep_no_occ hSp]
    have ha1 : ([jsonNote f1 ts, legacyNote f1, simpleNote f1] : List Str).any
        (fun p => verifyNotePart (jsTrim p) f2) = false := by
      simp [htJ, htL, htS, vnpJ, vnpL, vnpS]
    have ha2 : ([jsonNote f1 ts, [], [], legacyNote f1, [], [], simpleNote f1] : List Str).any
        (fun p => verifyNotePart (jsTrim p) f2) = false := by
      simp [htJ, htL, htS, vnpJ, vnpL, vnpS, jsTrim_nil, vnpnil]
    have hassoc : combinedNote f1 ts =
        jsonNote f1 ts ++ (sep3 ++ (legacyNote f1 ++ (sep3 ++ simpleNote f1))) := by
      simp [combinedNote, List.append_assoc]
    have hm3 : verifyNotePart (combinedNote f1 ts) f2 = false := by
      rw [hassoc]
      refine vnp_whole_false hclean (by simp [sep3]) ?_
      rw [← hassoc]
      exact hni
    rw [hm1, hm2, ha1, ha2, hm3]
    simp

/-- C2 counterexample — the negative round-trip fails as stated:
`"ab"` and `"a"` are distinct fingerprints, yet the note encoded for
`"ab"` is accepted for `"a"` through the substring-containment fallback
of `verifyNotePart`. -/
theorem negative_roundtrip_counterexample :
    ("ab".toList ≠ "a".toList) ∧
      matchesNote (encodeNote "ab".toList 0) "a".toList = true :=
  ⟨by decide, by decide⟩

/-- Witness for the amended negative round-trip at a concrete input. -/
theorem negative_roundtrip_amended_witness :
    matchesNote (encodeNote "ab".toList 0) "zz".toList = false :=
  negative_roundtrip_amended (by decide) (by decide) (by decide)

/-! ### Size of the encoded note (C3) -/

theorem jsonNote_length {f : Str} (hclean : cleanStr f = true) (ts : Nat) :
    (jsonNote f ts).length = 84 + f.length + (natChars ts).length := by
  have h1 : (pLit1 : Str).length = 9 := by decide
  have h2 : (tVal : Str).length = 11 := by decide
  have h3 : (pLit2 : Str).length = 9 := by decide
  have h4 : (pLit3 : Str).length = 13 := by decide
  have h5 : (pLit4 : Str).length = 12 := by decide
  have h6 : (vVal : Str).length = 3 := by decide
  have h7 : (pLit5 : Str).length = 8 := by decide
  have h8 : (aVal : Str).length = 14 := by decide
  rw [jsonNote, jsonEscape_eq_self hclean]
  simp only [List.length_append, List.length_cons, h1, h2, h3, h4, h5, h6, h7, h8,
    List.length_singleton, List.length_nil]
  omega

theorem combinedNote_length {f : Str} (hclean : cleanStr f = true) (ts : Nat) :
    (combinedNote f ts).length = 105 + 3 * f.length + (natChars ts).length := by
  have hh : ("HEALTH_DATA:".toList : Str).length = 12 := by decide
  have hg : ("HG_".toList : Str).length = 3 := by decide
  have hs : (sep3 : Str).length = 3 := by decide
  rw [combinedNote, legacyNote, simpleNote]
  simp only [List.length_append, jsonNote_length hclean, hh, hg, hs]
  omega

/-- C3 counterexample — the 1024-byte ceiling fails as stated: with a
1000-character fingerprint the combined note exceeds the 1000-character
threshold, only the minimal format is dropped, and the result still
exceeds 1024 characters (2100 of them, all ASCII, hence 2100 bytes). -/
theorem size_ceiling_counterexample :
    1024 < (encodeNote (List.replicate 1000 'a') 0).length := by
  have hclean : cleanStr (List.replicate 1000 'a') = true := by decide
  have hh : ("HEALTH_DATA:".toList : Str).length = 12 := by decide
  have hs : (sep3 : Str).length = 3 := by decide
  have hn : (natChars 0).length = 1 := by decide
  have hcomb := combinedNote_length hclean 0
  rw [List.length_replicate, hn] at hcomb
  unfold encodeNote
  rw [if_pos (by omega)]
  simp only [List.length_append, jsonNote_length hclean, legacyNote, hh, hs,
    List.length_replicate, hn]
  omega

/-- C3 amended — Size ceiling under a bound on the inputs: for a clean
fingerprint of at most 400 characters and a timestamp of at most 16
digits, the encoded note stays within 1024 characters (equivalently
bytes, the characters being ASCII); when the combined note exceeds the
1000-character threshold, exactly the lowest-priority minimal format is
dropped and the JSON and legacy formats are always retained. -/
theorem size_ceiling_amended {f : Str} {ts : Nat} (hclean : cleanStr f = true)
    (hlen : f.length ≤ 400) (hts : (natChars ts).length ≤ 16) :
    (encodeNote f ts).length ≤ 1024 ∧
      (1000 < (combinedNote f ts).length →
        encodeNote f ts = jsonNote f ts ++ sep3 ++ legacyNote f) := by
  have hh : ("HEALTH_DATA:".toList : Str).length = 12 := by decide
  have hs : (sep3 : Str).length = 3 := by decide
  have hJ := jsonNote_length hclean ts
  constructor
  · unfold encodeNote
    by_cases h : 1000 < (combinedNote f ts).length
    · rw [if_pos h]
      simp only [List.length_append, hJ, legacyNote, hh, hs]
      omega
    · rw [if_neg h]
      omega
  · intro h
    unfold encodeNote
    rw [if_pos h]

/-- Witness for the amended size ceiling at a concrete input. -/
theorem size_ceiling_amended_witness :
    (encodeNote (List.replicate 400 'a') 0).length ≤ 1024 :=
  (size_ceiling_amended (by decide) (by decide) (by decide)).1

/-! ### Identity generation and validation (C4, C5) -/

theorem genFromManual_ok (env : GenEnv) : ∃ a, genFromManual env = .ok a := by
  unfold genFromManual generateAccountFallback
  repeat' split
  all_goals exact ⟨_, rfl⟩

theorem genFromMnemonic_ok (env : GenEnv) : ∃ a, genFromMnemonic env = .ok a := by
  unfold genFromMnemonic
  repeat' split
  all_goals first
    | exact ⟨_, rfl⟩
    | exact genFromManual_ok env

/-- C4 — the code, not the claim, is at fault: with every generation
strategy failing (`none` models the library call throwing, and the
validation oracle rejecting everything), `generateAccount` does not fail
with an exhaustion error — it silently returns the hard-coded mock
account with the all-`'A'` address; indeed it returns `.ok` for every
possible environment, so the documented `IdentityGenerationExhausted`
outcome is unreachable. -/
theorem generateAccount_returns_mock :
    generateAccount ⟨none, none, none, none, 0, fun _ => false⟩ =
      .ok (createMockAccount 0) ∧
    (createMockAccount 0).addr = List.replicate 58 'A' ∧
    (∀ env : GenEnv, ∃ a, generateAccount env = .ok a) := by
  refine ⟨rfl, rfl, ?_⟩
  intro env
  unfold generateAccount
  repeat' split
  all_goals first
    | exact ⟨_, rfl⟩
    | exact genFromMnemonic_ok env

/-- C5 counterexample — validation is not equivalent to the claimed
checks: `validateAccount` (src/unnamed/part_008) accepts the 58-`'A'`
address with a 64-byte key even when the checksum-decode oracle rejects
every address (as the real `algosdk.decodeAddress` rejects the all-`'A'`
address, whose checksum bytes cannot be all zero), because the decode is
skipped for addresses starting with `'AAAAAAA'`. -/
theorem validate_counterexample :
    validateAccount (fun _ => false)
      ⟨List.replicate 58 'A', List.replicate 64 0⟩ = true ∧
    (fun _ : Str => false) (List.replicate 58 'A') = false :=
  ⟨by decide, rfl⟩

/-- C5 amended — exact characterization of both validators: the base
service's `validateAccount` returns `true` iff the address has exactly 58
characters, the key exactly 64 bytes, and the address either starts with
`'AAAAAAA'` (the mock exemption) or passes the checksum decode; the
enhanced service's `isValidAccount` requires the decode unconditionally.
Both are pure functions of their arguments. -/
theorem validate_iffs (decodeOk : Str → Bool) (a : AlgorandAccount) :
    (validateAccount decodeOk a = true ↔
      (a.addr.length = 58 ∧ a.sk.length = 64 ∧
        (startsWithL a.addr ("AAAAAAA".toList) = true ∨ decodeOk a.addr = true))) ∧
    (isValidAccount decodeOk a = true ↔
      (a.addr.length = 58 ∧ a.sk.length = 64 ∧ decodeOk a.addr = true)) := by
  constructor
  · unfold validateAccount
    simp only [Bool.and_eq_true, Bool.not_eq_true', Bool.or_eq_true, beq_iff_eq]
    constructor
    · rintro ⟨⟨⟨-, h58⟩, h64⟩, hor⟩
      exact ⟨h58, h64, hor⟩
    · rintro ⟨h58, h64, hor⟩
      refine ⟨⟨⟨?_, h58⟩, h64⟩, hor⟩
      cases haddr : a.addr with
      | nil => rw [haddr] at h58; simp at h58
      | cons c t => rfl
  · unfold isValidAccount
    simp only [Bool.and_eq_true, Bool.not_eq_true', beq_iff_eq]
    constructor
    · rintro ⟨⟨⟨-, h58⟩, h64⟩, hd⟩
      exact ⟨h58, h64, hd⟩
    · rintro ⟨h58, h64, hd⟩
      refine ⟨⟨⟨?_, h58⟩, h64⟩, hd⟩
      cases haddr : a.addr with
      | nil => rw [haddr] at h58; simp at h58
      | cons c t => rfl

/-! ### The verification service never raises (C6) -/

/-- C6 — Verification never raises: the outer `catch` of
`verifyHealthData` maps every exception of the body to the outcome
`false`; in particular exhausted fetch retries, an unconfirmed
transaction, and a note whose decoding fails all produce `false`, and a
`true` outcome can only arise from a normally-returning body. -/
theorem verify_never_raises (dataHash : Str) (env : VerifyEnv) :
    (∀ e, verifyHealthDataBody dataHash env = .error e →
      verifyHealthData dataHash env = false) ∧
    (env.fetch 1 = none → env.fetch 2 = none → env.fetch 3 = none →
      verifyHealthData dataHash env = false) ∧
    (∀ t, firstFetch env = some t → t.confirmedRound = none →
      verifyHealthData dataHash env = false) ∧
    (∀ t nf, firstFetch env = some t → t.confirmedRound ≠ none →
      findNote t = some nf → nf.decoded = none →
      verifyHealthData dataHash env = false) ∧
    (verifyHealthData dataHash env = true →
      verifyHealthDataBody dataHash env = .ok true) := by
  refine ⟨?_, ?_, ?_, ?_, ?_⟩
  · intro e he
    unfold verifyHealthData
    rw [he]
  · intro h1 h2 h3
    unfold verifyHealthData verifyHealthDataBody firstFetch
    rw [h1, h2, h3]
    rfl
  · intro t hft hcr
    simp only [verifyHealthData, verifyHealthDataBody, hft, hcr]
  · intro t nf hft hcr hnf hdec
    cases hc : t.confirmedRound with
    | none => exact absurd hc hcr
    | some r =>
      simp only [verifyHealthData, verifyHealthDataBody, hft, hc, hnf, hdec]
  · intro h
    unfold verifyHealthData at h
    cases hb : verifyHealthDataBody dataHash env with
    | ok b =>
      rw [hb] at h
      have hb2 : b = true := h
      rw [hb2]
    | error e =>
      rw [hb] at h
      exact absurd h (by simp)

/-- Witness for C6: with every fetch attempt throwing, verification
resolves to `false` rather than raising. -/
theorem verify_never_raises_witness :
    verifyHealthData [] ⟨fun _ => none, fun _ => none⟩ = false :=
  (verify_never_raises [] ⟨fun _ => none, fun _ => none⟩).2.1 rfl rfl rfl

/-! ### Funding (C7) -/

theorem tryDispensers_false (env : FundEnv) (l : List Nat) (calls : Nat)
    (h : ∀ i ∈ l, env.responseOk i = none ∨ env.responseOk i = some false ∨
      env.balanceAfter i < minimumBalance) :
    (tryDispensers env l calls).1 = false := by
  induction l generalizing calls with
  | nil => rfl
  | cons i rest ih =>
    have hi := h i (List.mem_cons_self i rest)
    have hrest : ∀ j ∈ rest, env.responseOk j = none ∨ env.responseOk j = some false ∨
        env.balanceAfter j < minimumBalance :=
      fun j hj => h j (List.mem_cons_of_mem i hj)
    unfold tryDispensers
    rcases hi with hi | hi | hi
    · rw [hi]
      exact ih _ hrest
    · rw [hi]
      exact ih _ hrest
    · cases hresp : env.responseOk i with
      | none => exact ih _ hrest
      | some b =>
        cases b with
        | false => exact ih _ hrest
        | true =>
          simp only [if_neg (by omega : ¬ minimumBalance ≤ env.balanceAfter i)]
          exact ih _ hrest

/-- C7 — Funding: a balance already at or above the minimum short-circuits
with `true` and zero faucet requests; if every dispenser throws, responds
non-ok, or leaves the balance under the threshold, the coordinator
returns `false` instead of throwing; and a thrown first dispenser does
not abort the iteration — the second can still succeed. -/
theorem funding_spec (env : FundEnv) :
    (minimumBalance ≤ env.initialBalance → ensureAccountFunded env = (true, 0)) ∧
    (env.initialBalance < minimumBalance →
      (∀ i, i < 2 → env.responseOk i = none ∨ env.responseOk i = some false ∨
        env.balanceAfter i < minimumBalance) →
      (ensureAccountFunded env).1 = false) ∧
    (env.initialBalance < minimumBalance → env.responseOk 0 = none →
      env.responseOk 1 = some true → minimumBalance ≤ env.balanceAfter 1 →
      ensureAccountFunded env = (true, 2)) := by
  refine ⟨?_, ?_, ?_⟩
  · intro h
    unfold ensureAccountFunded
    rw [if_pos h]
  · intro hlt hall
    unfold ensureAccountFunded
    rw [if_neg (by omega)]
    refine tryDispensers_false env [0, 1] 0 ?_
    intro i hi
    refine hall i ?_
    rcases List.mem_cons.mp hi with h | h
    · omega
    · rcases List.mem_singleton.mp h with h
      omega
  · intro hlt h0 h1 hbal
    unfold ensureAccountFunded
    rw [if_neg (by omega)]
    unfold tryDispensers
    rw [h0]
    unfold tryDispensers
    rw [h1]
    simp [if_pos hbal]

/-- Witness for C7: a pre-funded account returns `true` with zero faucet
calls. -/
theorem funding_spec_witness :
    ensureAccountFunded ⟨100000, fun _ => none, fun _ => 0⟩ = (true, 0) :=
  (funding_spec ⟨100000, fun _ => none, fun _ => 0⟩).1 (by decide)

/-! ### Commitment retry policy (C8) -/

/-- C8 — Commitment retry policy: with a valid account, a successful
first attempt returns the commitment built from that attempt's
transaction id and confirmed round with no backoff sleeps; a success on
the third attempt after two failures sleeps `2000 * 1` and `2000 * 2`
milliseconds (base delay times attempt number) and still returns that
attempt's commitment; and three failed attempts produce the last error
wrapped in the commitment-failure message, again after the two backoff
sleeps.  Fresh parameters, submission and confirmation outcomes are drawn
from the per-attempt environment, i.e. re-fetched on every attempt. -/
theorem commit_retry_spec (decodeOk : Str → Bool) (account : AlgorandAccount)
    (dataHash : Str) (env : CommitEnv)
    (hvalid : isValidAccount decodeOk account = true) :
    (∀ txId round, stepAttempt env 1 = .ok (txId, round) →
      storeHealthDataInTransaction decodeOk account dataHash env =
        (.ok ⟨txId, round, dataHash, account.addr, true⟩, [])) ∧
    (∀ e1 e2 txId round, stepAttempt env 1 = .error e1 →
      stepAttempt env 2 = .error e2 → stepAttempt env 3 = .ok (txId, round) →
      storeHealthDataInTransaction decodeOk account dataHash env =
        (.ok ⟨txId, round, dataHash, account.addr, true⟩, [2000 * 1, 2000 * 2])) ∧
    (∀ e1 e2 e3, stepAttempt env 1 = .error e1 → stepAttempt env 2 = .error e2 →
      stepAttempt env 3 = .error e3 →
      storeHealthDataInTransaction decodeOk account dataHash env =
        (.error ("Failed to store health data after 3 attempts: ".toList ++ e3),
          [2000 * 1, 2000 * 2])) := by
  refine ⟨?_, ?_, ?_⟩
  · intro txId round h1
    unfold storeHealthDataInTransaction
    rw [if_pos hvalid]
    rw [show (3 : Nat) = 2 + 1 from rfl]
    unfold commitGo
    rw [h1]
  · intro e1 e2 txId round h1 h2 h3
    unfold storeHealthDataInTransaction
    rw [if_pos hvalid]
    rw [show (3 : Nat) = 2 + 1 from rfl]
    unfold commitGo
    rw [h1]
    simp only [if_neg (by omega : ¬ (2 : Nat) = 0)]
    rw [show (2 : Nat) = 1 + 1 from rfl]
    unfold commitGo
    rw [h2]
    simp only [if_neg (by omega : ¬ (1 : Nat) = 0)]
    unfold commitGo
    rw [h3]
  · intro e1 e2 e3 h1 h2 h3
    unfold storeHealthDataInTransaction
    rw [if_pos hvalid]
    rw [show (3 : Nat) = 2 + 1 from rfl]
    unfold commitGo
    rw [h1]
    simp only [if_neg (by omega : ¬ (2 : Nat) = 0)]
    rw [show (2 : Nat) = 1 + 1 from rfl]
    unfold commitGo
    rw [h2]
    simp only [if_neg (by omega : ¬ (1 : Nat) = 0)]
    unfold commitGo
    rw [h3]
    simp

/-- Witness for C8: three failing attempts yield the wrapped last error
and the two backoff delays. -/
theorem commit_retry_witness :
    storeHealthDataInTransaction (fun _ => true)
      ⟨List.replicate 58 'A', List.replicate 64 0⟩ []
      ⟨fun _ => true,
        fun _ => ⟨.error "x".toList, .error "x".toList, .error "x".toList⟩⟩ =
      (.error ("Failed to store health data after 3 attempts: ".toList ++ "x".toList),
        [2000 * 1, 2000 * 2]) :=
  (commit_retry_spec (fun _ => true) ⟨List.replicate 58 'A', List.replicate 64 0⟩ []
    ⟨fun _ => true, fun _ => ⟨.error "x".toList, .error "x".toList, .error "x".toList⟩⟩
    (by decide)).2.2 "x".toList "x".toList "x".toList rfl rfl rfl

/-! ### Verification without a transaction id (C9) -/

/-- C9 — Without a transaction id, `verifyHealthDataOnBlockchain` touches
no ledger state and ignores the fingerprint entirely: its outcome is the
same for every environment and every data hash, and it is `true` exactly
when the address is non-empty and 58 characters long. -/
theorem verify_no_txid_spec (dataHash userAddress : Str) (env env2 : VerifyEnv) :
    (verifyHealthDataOnBlockchain dataHash userAddress none env =
      verifyHealthDataOnBlockchain dataHash userAddress none env2) ∧
    (∀ otherHash : Str, verifyHealthDataOnBlockchain dataHash userAddress none env =
      verifyHealthDataOnBlockchain otherHash userAddress none env) ∧
    (verifyHealthDataOnBlockchain dataHash userAddress none env = true ↔
      userAddress ≠ [] ∧ userAddress.length = 58) := by
  refine ⟨rfl, fun _ => rfl, ?_⟩
  unfold verifyHealthDataOnBlockchain
  simp only [Bool.and_eq_true, Bool.not_eq_true', beq_iff_eq]
  constructor
  · rintro ⟨hempty, hlen⟩
    refine ⟨?_, hlen⟩
    intro hnil
    rw [hnil] at hempty
    exact absurd hempty (by simp)
  · rintro ⟨hne, hlen⟩
    refine ⟨?_, hlen⟩
    cases haddr : userAddress with
    | nil => exact absurd haddr hne
    | cons c t => rfl
